import Mathlib

/-!
Verification of the `HashMap` container in `src/hashMap.hpp` of the
SpamDetector repository.

The C++ class `HashMap<keyT, valueT>` is a separate-chaining hash table:
an owned array `_buckets` of `_capacity` vectors of key/value pairs,
together with an entry count `_size`.  We embed it shallowly: the bucket
array becomes a `List (List (κ × ν))`, the two `int` counters become `Nat`,
and the supplied `std::hash<keyT>` becomes an arbitrary function
`hash : κ → Nat`.  Operations that can throw return `Option`/`Except`.

The source's `resize` re-inserts every entry through the ordinary `insert`,
which may itself call `resize`; this genuine recursion is embedded with an
explicit fuel parameter (`insertF`), and `none` marks fuel exhaustion.
Fuel `3` is provably sufficient on every table satisfying the data-model
invariant (one resize per operation, no nested resize), which is why the
public `insert`/`erase` use it.

The C++ load-factor tests compare `double(_size) / _capacity` against
`0.75` and `0.25`.  For a power-of-two `_capacity`, dividing by it is exact
in IEEE double precision, so the comparison agrees with the exact rational
one; we embed the tests as the equivalent integer comparisons
(`3 * capacity < 4 * size` and `4 * size < capacity`) and prove them equal
to the rational formulation of `getLoadFactor` below
(`highCheck_eq_loadFactor`, `lowCheck_eq_loadFactor`).
-/

set_option linter.unusedSectionVars false

namespace SpamDetector

/-- The table state: `_buckets` (array of collision vectors), `_size`,
`_capacity`, exactly the data members of the C++ class. -/
structure HashMap (κ ν : Type) where
  buckets : List (List (κ × ν))
  size : Nat
  capacity : Nat
  deriving DecidableEq

variable {κ ν : Type} [DecidableEq κ] [DecidableEq ν]

namespace HashMap

/-- `hashy`: `std::hash<keyT>()(item) & (_capacity - 1)`. -/
def hashy (hash : κ → Nat) (t : HashMap κ ν) (k : κ) : Nat :=
  hash k &&& (t.capacity - 1)

/-- `_buckets[i]` (reads as the empty bucket out of range; the C++ never
indexes out of range in defined executions). -/
def bucketAt (t : HashMap κ ν) (i : Nat) : List (κ × ν) :=
  t.buckets.getD i []

/-- `getLoadFactor`: `double(_size) / _capacity`, embedded exactly as a
rational. -/
def getLoadFactor (t : HashMap κ ν) : ℚ :=
  (t.size : ℚ) / (t.capacity : ℚ)

/-- The test `getLoadFactor() > DEF_HIGH_BOUND` (0.75), as the equivalent
exact integer comparison. -/
def highCheck (t : HashMap κ ν) : Bool :=
  3 * t.capacity < 4 * t.size

/-- The test `getLoadFactor() < DEF_LOW_BOUND` (0.25), as the equivalent
exact integer comparison. -/
def lowCheck (t : HashMap κ ν) : Bool :=
  4 * t.size < t.capacity

/-- `bucketIndex(key)`: hashes `key`, scans bucket `_buckets[i]` linearly
for a matching key and returns `i`; `none` embeds the thrown exception. -/
def bucketIndex? (hash : κ → Nat) (t : HashMap κ ν) (k : κ) : Option Nat :=
  let i := hashy hash t k
  if (t.bucketAt i).any (fun e => decide (e.1 = k)) then some i else none

/-- `containsKey(key)`: true iff `bucketIndex` does not throw. -/
def containsKey (hash : κ → Nat) (t : HashMap κ ν) (k : κ) : Bool :=
  (bucketIndex? hash t k).isSome

/-- `at(key)`: looks up the bucket through `bucketIndex`, then scans it for
the first matching key; `none` embeds the propagated exception. -/
def atKey? (hash : κ → Nat) (t : HashMap κ ν) (k : κ) : Option ν :=
  match bucketIndex? hash t k with
  | none => none
  | some i => ((t.bucketAt i).find? (fun e => decide (e.1 = k))).map Prod.snd

/-- `empty()`: literally `return _size != 0;`. -/
def emptyCheck (t : HashMap κ ν) : Bool :=
  decide (t.size ≠ 0)

/-- `clear()`: empties every bucket.  Note that the C++ body touches only
`_buckets`; `_size` and `_capacity` are left as they were. -/
def clear (t : HashMap κ ν) : HashMap κ ν :=
  { t with buckets := t.buckets.map (fun _ => ([] : List (κ × ν))) }

/-- A fresh bucket array of `c` empty vectors. -/
def mkBuckets (c : Nat) : List (List (κ × ν)) :=
  List.replicate c []

/-- The default constructor: capacity `DEF_CAPACITY = 16`, size 0, all
buckets empty. -/
def defaultTable : HashMap κ ν :=
  ⟨mkBuckets 16, 0, 16⟩

/-- The unconditional part of `insert` : `_buckets[keyHash].push_back(pair);
_size++;`. -/
def pushEntry (hash : κ → Nat) (t : HashMap κ ν) (k : κ) (v : ν) : HashMap κ ν :=
  let i := hashy hash t k
  { t with buckets := t.buckets.set i (t.bucketAt i ++ [(k, v)]),
           size := t.size + 1 }

/-- The body of `resize(way)` with the recursive `insert` abstracted out:
double (`way = 1`, `UP`) or halve the capacity, allocate a fresh empty
bucket array, zero the size, and re-insert every saved entry in bucket
index order, then in-bucket order. -/
def resizeWith (ins : HashMap κ ν → κ → ν → Option (HashMap κ ν × Bool))
    (way : Nat) (t : HashMap κ ν) : Option (HashMap κ ν) :=
  let newCap := if way = 1 then t.capacity * 2 else t.capacity / 2
  t.buckets.flatten.foldlM (fun acc e => (ins acc e.1 e.2).map Prod.fst)
    (⟨mkBuckets newCap, 0, newCap⟩ : HashMap κ ν)

/-- `insert(key, value)` with fuel for the `insert`/`resize` recursion:
return false if the key is present, otherwise append the pair to its
bucket, bump the size, and grow when the load factor exceeds 0.75. -/
def insertF (hash : κ → Nat) : Nat → HashMap κ ν → κ → ν → Option (HashMap κ ν × Bool)
  | 0, _, _, _ => none
  | fuel + 1, t, k, v =>
    if containsKey hash t k then some (t, false)
    else
      let t1 := pushEntry hash t k v
      if highCheck t1 then
        (resizeWith (fun a b c => insertF hash fuel a b c) 1 t1).map (fun t2 => (t2, true))
      else some (t1, true)

/-- The public `insert`; fuel 3 covers the one (never nested) resize an
insertion can trigger on any table satisfying the data-model invariant. -/
def insert (hash : κ → Nat) (t : HashMap κ ν) (k : κ) (v : ν) :
    Option (HashMap κ ν × Bool) :=
  insertF hash 3 t k v

/-- `erase(key)`: find the bucket via `bucketIndex` (returning false on the
caught exception), scan it for the key, remove the first matching entry,
decrement the size, and shrink when the load factor drops below 0.25. -/
def erase (hash : κ → Nat) (t : HashMap κ ν) (k : κ) :
    Option (HashMap κ ν × Bool) :=
  match bucketIndex? hash t k with
  | none => some (t, false)
  | some i =>
    let b := t.bucketAt i
    if b.any (fun e => decide (e.1 = k)) then
      let t1 : HashMap κ ν :=
        { t with buckets := t.buckets.set i (b.eraseP (fun e => decide (e.1 = k))),
                 size := t.size - 1 }
      if lowCheck t1 then
        (resizeWith (fun a b c => insertF hash 2 a b c) 0 t1).map (fun t2 => (t2, true))
      else some (t1, true)
    else some (t, false)  -- dead branch: `bucketIndex` guaranteed a match

/-- All stored entries in bucket index order, then in-bucket order: the
order in which the `begin()`/`end()` iteration and `resize` visit them. -/
def entries (t : HashMap κ ν) : List (κ × ν) :=
  t.buckets.flatten

/-- The copy constructor: `_size` is initialised to `other._size`, the
bucket array to `other._capacity` fresh empty vectors, and then every
entry of `other` (in iteration order) is re-inserted through `insert`,
which increments `_size` again. -/
def copyCtor (hash : κ → Nat) (t : HashMap κ ν) : Option (HashMap κ ν) :=
  (entries t).foldlM (fun acc e => (insert hash acc e.1 e.2).map Prod.fst)
    (⟨mkBuckets t.capacity, t.size, t.capacity⟩ : HashMap κ ν)

/-- `operator=` (on distinct objects): delete the buckets, reset `_size`
to 0, allocate `other._capacity` fresh buckets, and insert every entry of
`other` in iteration order. -/
def assign (hash : κ → Nat) (src : HashMap κ ν) : Option (HashMap κ ν) :=
  (entries src).foldlM (fun acc e => (insert hash acc e.1 e.2).map Prod.fst)
    (⟨mkBuckets src.capacity, 0, src.capacity⟩ : HashMap κ ν)

/-- Replace the value of the first entry with key `k` (the effect of
assigning through the reference returned by `operator[]`); leaves the list
unchanged when no entry matches (the C++ reference is then dangling). -/
def setFirst : List (κ × ν) → κ → ν → List (κ × ν)
  | [], _, _ => []
  | e :: rest, k, v => if e.1 = k then (e.1, v) :: rest else e :: setFirst rest k v

/-- Writing `v` through the reference `operator[]` returns: the value of
the first entry with key `k` (which `operator[]` guarantees exists) is
replaced in place. -/
def overwriteAt (hash : κ → Nat) (t1 : HashMap κ ν) (k : κ) (v : ν) : HashMap κ ν :=
  let i := hashy hash t1 k
  { t1 with buckets := t1.buckets.set i (setFirst (t1.bucketAt i) k v) }

/-- `hm[k] = v` through the non-const `operator[]`: if `k` is absent,
insert `(k, default-constructed value)` first (possibly growing the
table), then overwrite the referenced value with `v`. -/
def bracketAssign (hash : κ → Nat) [Inhabited ν] (t : HashMap κ ν) (k : κ) (v : ν) :
    Option (HashMap κ ν) :=
  let step1 : Option (HashMap κ ν) :=
    if containsKey hash t k then some t
    else (insert hash t k (default : ν)).map Prod.fst
  step1.map (fun t1 => overwriteAt hash t1 k v)

/-- The `(keys, values)` constructor: throws (`Except.error ()`) when the
lengths differ, otherwise assigns `values[i]` to `(*this)[keys[i]]` in
index order (the inner `Option` is the fuel of the implicit inserts). -/
def ofLists (hash : κ → Nat) [Inhabited ν] (keys : List κ) (values : List ν) :
    Except Unit (Option (HashMap κ ν)) :=
  if keys.length ≠ values.length then Except.error ()
  else Except.ok ((keys.zip values).foldlM (fun t e => bracketAssign hash t e.1 e.2)
    defaultTable)

/-- `operator==`: size comparison, then every entry of `other` is looked
up with `at` on `this` (a throw, caught, compares unequal). -/
def beqTable (hash : κ → Nat) (a b : HashMap κ ν) : Bool :=
  if a.size ≠ b.size then false
  else (entries b).all (fun e =>
    match atKey? hash a e.1 with
    | some w => decide (w = e.2)
    | none => false)

/-- `operator!=`. -/
def bneTable (hash : κ → Nat) (a b : HashMap κ ν) : Bool :=
  ! beqTable hash a b

section Iteration

/-- The iterator state: the bucket index `_index` and the offset of the
vector iterator `_it` inside that bucket. -/
structure Iter where
  idx : Nat
  off : Nat
  deriving DecidableEq

/-- `first()`: index of the first non-empty bucket, or `_capacity` if all
are empty (for a well-formed table `_buckets` has exactly `_capacity`
entries, and `findIdx` returns the length when nothing matches). -/
def firstNonempty (t : HashMap κ ν) : Nat :=
  t.buckets.findIdx (fun b => !b.isEmpty)

/-- `end()`: past-the-end of the last bucket. -/
def endIter (t : HashMap κ ν) : Iter :=
  ⟨t.capacity - 1, (t.bucketAt (t.capacity - 1)).length⟩

/-- `begin()`: the first entry of the first non-empty bucket, or `end()`
for an empty table. -/
def beginIter (t : HashMap κ ν) : Iter :=
  let i := firstNonempty t
  if i = t.capacity then endIter t else ⟨i, 0⟩

/-- The `while` loop of `operator++`: while `_it` sits at the end of its
bucket and `_index < _capacity - 1`, move to the start of the next
bucket. -/
def advance (t : HashMap κ ν) (idx off : Nat) : Iter :=
  if h : off = (t.bucketAt idx).length ∧ idx < t.capacity - 1 then
    advance t (idx + 1) 0
  else ⟨idx, off⟩
termination_by t.capacity - 1 - idx
decreasing_by omega

/-- `operator++`: step the in-bucket iterator, then skip empty buckets. -/
def iterStep (t : HashMap κ ν) (it : Iter) : Iter :=
  advance t it.idx (it.off + 1)

/-- `operator*`: the entry the iterator points at (`none` embeds the
undefined dereference of a terminal iterator). -/
def deref? (t : HashMap κ ν) (it : Iter) : Option (κ × ν) :=
  (t.bucketAt it.idx)[it.off]?

/-- A full client traversal: dereference and advance until the cursor
compares equal to `end()`, with fuel bounding the number of steps. -/
def travF (t : HashMap κ ν) : Nat → Iter → Option (List (κ × ν))
  | 0, _ => none
  | fuel + 1, it =>
    if it = endIter t then some []
    else
      match deref? t it with
      | none => none
      | some e => (travF t fuel (iterStep t it)).map (fun l => e :: l)

end Iteration

section Reachability

/-- A client operation: one `insert` or one `erase` call. -/
inductive Op (κ ν : Type) where
  | ins (k : κ) (v : ν)
  | del (k : κ)
  deriving DecidableEq

/-- Apply one operation (the returned boolean is discarded). -/
def applyOp (hash : κ → Nat) (t : HashMap κ ν) : Op κ ν → Option (HashMap κ ν)
  | Op.ins k v => (insert hash t k v).map Prod.fst
  | Op.del k => (erase hash t k).map Prod.fst

/-- Run a sequence of operations from a default-constructed table. -/
def runOps (hash : κ → Nat) (ops : List (Op κ ν)) : Option (HashMap κ ν) :=
  ops.foldlM (applyOp hash) defaultTable

/-- The specification-level effect of one operation on an abstract partial
map: `insert` stores only when the key is fresh, `erase` removes. -/
def specApply (m : κ → Option ν) : Op κ ν → (κ → Option ν)
  | Op.ins k v => if (m k).isSome then m else fun k' => if k' = k then some v else m k'
  | Op.del k => fun k' => if k' = k then none else m k'

/-- The abstract map described by a sequence of operations. -/
def specRun (ops : List (Op κ ν)) : κ → Option ν :=
  ops.foldl specApply (fun _ => none)

end Reachability

/-! ## Association-list view

Lookup in the flattened entry list, used to relate `at`/`containsKey` to
the multiset of stored pairs. -/

/-- Lookup of the first entry with a given key in a plain entry list. -/
def alookup (l : List (κ × ν)) (k : κ) : Option ν :=
  (l.find? (fun e => decide (e.1 = k))).map Prod.snd

/-- The keys of an entry list. -/
def keysOf (l : List (κ × ν)) : List κ :=
  l.map Prod.fst

@[simp]
theorem alookup_nil (k : κ) : alookup ([] : List (κ × ν)) k = none := rfl

theorem alookup_cons (e : κ × ν) (l : List (κ × ν)) (k : κ) :
    alookup (e :: l) k = if e.1 = k then some e.2 else alookup l k := by
  by_cases h : e.1 = k <;> simp [alookup, List.find?_cons, h]

theorem alookup_append (l₁ l₂ : List (κ × ν)) (k : κ) :
    alookup (l₁ ++ l₂) k = (alookup l₁ k).or (alookup l₂ k) := by
  simp only [alookup, List.find?_append]
  cases List.find? (fun e => decide (e.1 = k)) l₁ <;> simp

theorem alookup_eq_none {l : List (κ × ν)} {k : κ} :
    alookup l k = none ↔ k ∉ keysOf l := by
  simp only [alookup, Option.map_eq_none', List.find?_eq_none, keysOf, List.mem_map]
  constructor
  · rintro h ⟨e, he, rfl⟩
    exact h e he (by simp)
  · intro h e he hk
    exact h ⟨e, he, by simpa using hk⟩

theorem mem_of_alookup_eq_some {l : List (κ × ν)} {k : κ} {v : ν}
    (h : alookup l k = some v) : (k, v) ∈ l := by
  simp only [alookup, Option.map_eq_some'] at h
  obtain ⟨e, he, rfl⟩ := h
  have h1 : e.1 = k := by simpa using List.find?_some he
  have h2 : e ∈ l := List.mem_of_find?_eq_some he
  rwa [show (k, e.2) = e from Prod.ext h1.symm rfl]

theorem alookup_isSome {l : List (κ × ν)} {k : κ} :
    (alookup l k).isSome = true ↔ k ∈ keysOf l := by
  cases h : alookup l k with
  | none => simpa using alookup_eq_none.mp h
  | some v =>
    simp only [Option.isSome_some, true_iff]
    exact List.mem_map.mpr ⟨(k, v), mem_of_alookup_eq_some h, rfl⟩

theorem alookup_eq_some_of_mem {l : List (κ × ν)} {k : κ} {v : ν}
    (hnd : (keysOf l).Nodup) (hm : (k, v) ∈ l) : alookup l k = some v := by
  induction l with
  | nil => cases hm
  | cons e rest ih =>
    rw [alookup_cons]
    rcases List.mem_cons.mp hm with h | h
    · simp [← h]
    · have hk : k ∈ keysOf rest := List.mem_map.mpr ⟨(k, v), h, rfl⟩
      have he1 : e.1 ≠ k := by
        rintro rfl
        exact ((List.nodup_cons.mp hnd).1 : e.1 ∉ keysOf rest) hk
      rw [if_neg he1]
      exact ih (List.nodup_cons.mp hnd).2 h

theorem alookup_eq_some_iff {l : List (κ × ν)} (hnd : (keysOf l).Nodup) {k : κ} {v : ν} :
    alookup l k = some v ↔ (k, v) ∈ l :=
  ⟨mem_of_alookup_eq_some, alookup_eq_some_of_mem hnd⟩

theorem alookup_congr_perm {l l' : List (κ × ν)} (hp : l.Perm l')
    (hnd : (keysOf l).Nodup) (k : κ) : alookup l k = alookup l' k := by
  have hnd' : (keysOf l').Nodup := ((hp.map Prod.fst).nodup_iff).mp hnd
  cases h : alookup l k with
  | none =>
    have h1 := alookup_eq_none.mp h
    exact (alookup_eq_none.mpr (fun hk => h1 ((hp.map Prod.fst).mem_iff.mpr hk))).symm
  | some v =>
    exact (alookup_eq_some_of_mem hnd' (hp.mem_iff.mp (mem_of_alookup_eq_some h))).symm

/-! ## Basic bucket lemmas -/

theorem bucketAt_lt {t : HashMap κ ν} {i : Nat} (h : i < t.buckets.length) :
    t.bucketAt i = t.buckets[i] := by
  simp [bucketAt, List.getD_eq_getElem?_getD, List.getElem?_eq_getElem h]

theorem bucketAt_ge {t : HashMap κ ν} {i : Nat} (h : t.buckets.length ≤ i) :
    t.bucketAt i = [] := by
  simp [bucketAt, List.getD_eq_getElem?_getD, List.getElem?_eq_none h]

theorem bucketAt_mkBuckets (c s cap i : Nat) :
    (⟨mkBuckets c, s, cap⟩ : HashMap κ ν).bucketAt i = [] := by
  simp only [bucketAt, mkBuckets, List.getD_eq_getElem?_getD, List.getElem?_replicate]
  split <;> simp

/-- Decomposition of the bucket array around index `i`. -/
theorem buckets_decomp (t : HashMap κ ν) {i : Nat} (h : i < t.buckets.length) :
    t.buckets = t.buckets.take i ++ t.bucketAt i :: t.buckets.drop (i + 1) := by
  rw [bucketAt_lt h, List.getElem_cons_drop, List.take_append_drop]

theorem set_decomp (t : HashMap κ ν) {i : Nat} (b : List (κ × ν))
    (h : i < t.buckets.length) :
    t.buckets.set i b = t.buckets.take i ++ b :: t.buckets.drop (i + 1) := by
  rw [List.set_eq_take_append_cons_drop, if_pos h]

/-- The hash of any key indexes a real bucket when the capacity is a power
of two (this is what `& (capacity - 1)` is for). -/
theorem hashy_lt (hash : κ → Nat) (t : HashMap κ ν) (k : κ) {m : Nat}
    (h : t.capacity = 2 ^ m) : hashy hash t k < t.capacity := by
  rw [hashy, h, Nat.and_pow_two_sub_one_eq_mod]
  exact Nat.mod_lt _ (Nat.pos_pow_of_pos m (by norm_num))

/-! ## Well-formedness -/

/-- The data-model invariant of a table (spec §3): the bucket array has
exactly `capacity` buckets, the capacity is a power of two, `size` counts
the stored entries, every entry sits in the bucket its key hashes to, and
keys are globally unique. -/
structure WF (hash : κ → Nat) (t : HashMap κ ν) : Prop where
  len : t.buckets.length = t.capacity
  pow : ∃ m, t.capacity = 2 ^ m
  sizeEq : t.size = (t.buckets.map List.length).sum
  placed : ∀ i, ∀ e ∈ t.bucketAt i, hashy hash t e.1 = i
  nodupKeys : (keysOf (entries t)).Nodup

theorem WF.capacity_pos {hash : κ → Nat} {t : HashMap κ ν} (h : WF hash t) :
    0 < t.capacity := by
  obtain ⟨m, hm⟩ := h.pow
  rw [hm]
  exact Nat.pos_pow_of_pos m (by norm_num)

theorem WF.hashy_lt' {hash : κ → Nat} {t : HashMap κ ν} (h : WF hash t) (k : κ) :
    hashy hash t k < t.capacity := by
  obtain ⟨m, hm⟩ := h.pow
  exact hashy_lt hash t k hm

theorem WF.length_entries {hash : κ → Nat} {t : HashMap κ ν} (h : WF hash t) :
    (entries t).length = t.size := by
  rw [entries, List.length_flatten, h.sizeEq]

/-! ## Lookup characterization -/

theorem getD_set_nil (l : List (List (κ × ν))) (i j : Nat) (b : List (κ × ν)) :
    (l.set i b).getD j [] = if j = i ∧ i < l.length then b else l.getD j [] := by
  split
  · next h =>
    obtain ⟨rfl, hlen⟩ := h
    simp [List.getD_eq_getElem?_getD, List.getElem?_set_self hlen]
  · next h =>
    rcases Decidable.em (j = i) with rfl | hne
    · have hlen : l.length ≤ j := by omega
      rw [List.set_eq_of_length_le hlen]
    · simp [List.getD_eq_getElem?_getD, List.getElem?_set_ne (Ne.symm hne)]

/-- `find?` over the flattened bucket array coincides with `find?` in
bucket `i` when no other bucket can contain a match. -/
theorem find?_flatten_eq {p : κ × ν → Bool} :
    ∀ (bs : List (List (κ × ν))) (i : Nat),
      (∀ j, j ≠ i → ∀ e ∈ bs.getD j [], p e = false) →
      bs.flatten.find? p = (bs.getD i []).find? p := by
  intro bs
  induction bs with
  | nil => intro i _; simp
  | cons b rest ih =>
    intro i h
    rw [List.flatten_cons, List.find?_append]
    match i with
    | 0 =>
      have hrest : rest.flatten.find? p = none := by
        rw [List.find?_eq_none]
        intro e he
        obtain ⟨l, hl, hel⟩ := List.mem_flatten.mp he
        obtain ⟨j, hj, rfl⟩ := List.mem_iff_getElem.mp hl
        have hgd : rest.getD j [] = rest[j] := by
          simp [List.getD_eq_getElem?_getD, List.getElem?_eq_getElem hj]
        simpa using h (j + 1) (by omega) e (by rw [List.getD_cons_succ, hgd]; exact hel)
      rw [hrest, Option.or_none, List.getD_cons_zero]
    | s + 1 =>
      have hb : b.find? p = none := by
        rw [List.find?_eq_none]
        intro e he
        simpa using h 0 (by omega) e (by simpa using he)
      rw [hb, Option.none_or, List.getD_cons_succ]
      exact ih s (fun j hj e he => h (j + 1) (by omega) e (by simpa using he))

theorem bucketIndex?_eq (hash : κ → Nat) (t : HashMap κ ν) (k : κ) :
    bucketIndex? hash t k =
      if (t.bucketAt (hashy hash t k)).any (fun e => decide (e.1 = k))
      then some (hashy hash t k) else none := rfl

theorem containsKey_eq_isSome_atKey? (hash : κ → Nat) (t : HashMap κ ν) (k : κ) :
    containsKey hash t k = (atKey? hash t k).isSome := by
  rw [containsKey, atKey?, bucketIndex?_eq]
  by_cases hc : ((t.bucketAt (hashy hash t k)).any fun e => decide (e.1 = k)) = true
  · rw [if_pos hc]
    have hfind : ((t.bucketAt (hashy hash t k)).find? fun e => decide (e.1 = k)).isSome = true :=
      List.find?_isSome.mpr (List.any_eq_true.mp hc)
    obtain ⟨e, he⟩ := Option.isSome_iff_exists.mp hfind
    simp [he]
  · rw [if_neg hc]
    rfl

theorem atKey?_eq_alookup_bucket (hash : κ → Nat) (t : HashMap κ ν) (k : κ) :
    atKey? hash t k = alookup (t.bucketAt (hashy hash t k)) k := by
  rw [atKey?, bucketIndex?_eq, alookup]
  by_cases hc : ((t.bucketAt (hashy hash t k)).any fun e => decide (e.1 = k)) = true
  · rw [if_pos hc]
  · rw [if_neg hc]
    have hfind : (t.bucketAt (hashy hash t k)).find? (fun e => decide (e.1 = k)) = none :=
      List.find?_eq_none.mpr (fun e he hp => hc (List.any_eq_true.mpr ⟨e, he, hp⟩))
    rw [hfind]
    rfl

theorem WF.atKey?_eq_alookup {hash : κ → Nat} {t : HashMap κ ν} (h : WF hash t) (k : κ) :
    atKey? hash t k = alookup (entries t) k := by
  rw [atKey?_eq_alookup_bucket, alookup, alookup, entries]
  congr 1
  refine (find?_flatten_eq t.buckets (hashy hash t k) ?_).symm
  intro j hj e he
  have hne : e.1 ≠ k := by
    intro hek
    have hpl : hashy hash t e.1 = j := h.placed j e he
    rw [hek] at hpl
    exact hj hpl.symm
  simpa using hne

theorem WF.atKey?_eq_some_iff {hash : κ → Nat} {t : HashMap κ ν} (h : WF hash t)
    {k : κ} {v : ν} : atKey? hash t k = some v ↔ (k, v) ∈ entries t := by
  rw [h.atKey?_eq_alookup]
  exact alookup_eq_some_iff h.nodupKeys

theorem WF.atKey?_eq_none_iff {hash : κ → Nat} {t : HashMap κ ν} (h : WF hash t)
    {k : κ} : atKey? hash t k = none ↔ k ∉ keysOf (entries t) := by
  rw [h.atKey?_eq_alookup]
  exact alookup_eq_none

theorem WF.containsKey_iff {hash : κ → Nat} {t : HashMap κ ν} (h : WF hash t)
    {k : κ} : containsKey hash t k = true ↔ k ∈ keysOf (entries t) := by
  rw [containsKey_eq_isSome_atKey?, h.atKey?_eq_alookup]
  exact alookup_isSome

theorem WF.containsKey_eq_false_iff {hash : κ → Nat} {t : HashMap κ ν} (h : WF hash t)
    {k : κ} : containsKey hash t k = false ↔ k ∉ keysOf (entries t) := by
  rw [← h.containsKey_iff]
  cases containsKey hash t k <;> simp

/-! ## The load-factor tests agree with the rational `getLoadFactor` -/

theorem highCheck_iff {t : HashMap κ ν} (h : 0 < t.capacity) :
    highCheck t = true ↔ (3 : ℚ) / 4 < getLoadFactor t := by
  have hc : (0 : ℚ) < (t.capacity : ℚ) := by exact_mod_cast h
  simp only [highCheck, getLoadFactor, decide_eq_true_eq]
  rw [div_lt_div_iff₀ (by norm_num) hc, mul_comm (t.size : ℚ) 4]
  exact_mod_cast Iff.rfl

theorem lowCheck_iff {t : HashMap κ ν} (h : 0 < t.capacity) :
    lowCheck t = true ↔ getLoadFactor t < (1 : ℚ) / 4 := by
  have hc : (0 : ℚ) < (t.capacity : ℚ) := by exact_mod_cast h
  simp only [lowCheck, getLoadFactor, decide_eq_true_eq]
  rw [div_lt_div_iff₀ hc (by norm_num), one_mul, mul_comm (t.size : ℚ) 4]
  exact_mod_cast Iff.rfl

/-! ## The unconditional append (`pushEntry`) -/

@[simp]
theorem pushEntry_size (hash : κ → Nat) (t : HashMap κ ν) (k : κ) (v : ν) :
    (pushEntry hash t k v).size = t.size + 1 := rfl

@[simp]
theorem pushEntry_capacity (hash : κ → Nat) (t : HashMap κ ν) (k : κ) (v : ν) :
    (pushEntry hash t k v).capacity = t.capacity := rfl

@[simp]
theorem hashy_pushEntry (hash : κ → Nat) (t : HashMap κ ν) (k k' : κ) (v : ν) :
    hashy hash (pushEntry hash t k v) k' = hashy hash t k' := rfl

theorem pushEntry_buckets (hash : κ → Nat) (t : HashMap κ ν) (k : κ) (v : ν) :
    (pushEntry hash t k v).buckets =
      t.buckets.set (hashy hash t k) (t.bucketAt (hashy hash t k) ++ [(k, v)]) := rfl

theorem entries_pushEntry_perm (hash : κ → Nat) (t : HashMap κ ν) (k : κ) (v : ν)
    (hlt : hashy hash t k < t.buckets.length) :
    (entries (pushEntry hash t k v)).Perm ((k, v) :: entries t) := by
  have h1 : entries (pushEntry hash t k v) =
      (t.buckets.take (hashy hash t k)).flatten ++
        ((t.bucketAt (hashy hash t k) ++ [(k, v)]) ++
          (t.buckets.drop (hashy hash t k + 1)).flatten) := by
    rw [entries, pushEntry_buckets, set_decomp t _ hlt, List.flatten_append,
      List.flatten_cons]
  have h2 : entries t =
      (t.buckets.take (hashy hash t k)).flatten ++
        (t.bucketAt (hashy hash t k) ++ (t.buckets.drop (hashy hash t k + 1)).flatten) := by
    conv_lhs => rw [entries, buckets_decomp t hlt]
    rw [List.flatten_append, List.flatten_cons]
  rw [h1, h2]
  have hmid := @List.perm_middle _ (k, v)
    ((t.buckets.take (hashy hash t k)).flatten ++ t.bucketAt (hashy hash t k))
    ((t.buckets.drop (hashy hash t k + 1)).flatten)
  simpa [List.append_assoc] using hmid

theorem WF_pushEntry {hash : κ → Nat} {t : HashMap κ ν} (h : WF hash t) {k : κ} (v : ν)
    (hk : k ∉ keysOf (entries t)) : WF hash (pushEntry hash t k v) := by
  have hlt : hashy hash t k < t.buckets.length := by
    rw [h.len]; exact h.hashy_lt' k
  have hperm := entries_pushEntry_perm hash t k v hlt
  refine ⟨?_, ?_, ?_, ?_, ?_⟩
  · rw [pushEntry_buckets, List.length_set, h.len]; rfl
  · exact h.pow
  · have hsz := h.sizeEq
    conv_rhs at hsz => rw [buckets_decomp t hlt]
    rw [List.map_append, List.sum_append, List.map_cons, List.sum_cons] at hsz
    rw [pushEntry_size, pushEntry_buckets, set_decomp t _ hlt, List.map_append,
      List.sum_append, List.map_cons, List.sum_cons, List.length_append]
    simp only [List.length_singleton]
    omega
  · intro j e he
    have he' : e ∈ (t.buckets.set (hashy hash t k)
        (t.bucketAt (hashy hash t k) ++ [(k, v)])).getD j [] := he
    clear he
    rename' he' => he
    rw [getD_set_nil] at he
    split at he
    · next hcond =>
      rcases List.mem_append.mp he with hin | hin
      · rw [hashy_pushEntry]
        rw [h.placed (hashy hash t k) e hin]
        exact hcond.1.symm
      · rw [List.mem_singleton] at hin
        rw [hin, hashy_pushEntry]
        exact hcond.1.symm
    · exact h.placed j e he
  · have hkeys : (keysOf (entries (pushEntry hash t k v))).Perm (k :: keysOf (entries t)) :=
      hperm.map Prod.fst
    rw [hkeys.nodup_iff, List.nodup_cons]
    exact ⟨hk, h.nodupKeys⟩

theorem atKey?_pushEntry {hash : κ → Nat} {t : HashMap κ ν} (h : WF hash t) {k : κ} (v : ν)
    (hk : k ∉ keysOf (entries t)) (k' : κ) :
    atKey? hash (pushEntry hash t k v) k' = if k = k' then some v else atKey? hash t k' := by
  have hlt : hashy hash t k < t.buckets.length := by
    rw [h.len]; exact h.hashy_lt' k
  have hwf := WF_pushEntry h v hk
  rw [hwf.atKey?_eq_alookup,
    alookup_congr_perm (entries_pushEntry_perm hash t k v hlt) hwf.nodupKeys,
    alookup_cons, h.atKey?_eq_alookup]

theorem entries_mkTable (c s cap : Nat) :
    entries (⟨mkBuckets c, s, cap⟩ : HashMap κ ν) = [] := by
  simp [entries, mkBuckets, List.flatten_replicate_nil]

theorem atKey?_mkTable (hash : κ → Nat) (c s cap : Nat) (k : κ) :
    atKey? hash (⟨mkBuckets c, s, cap⟩ : HashMap κ ν) k = none := by
  rw [atKey?_eq_alookup_bucket, bucketAt_mkBuckets]
  rfl

theorem WF_mkTable (hash : κ → Nat) {c : Nat} (hpow : ∃ m, c = 2 ^ m) :
    WF hash (⟨mkBuckets c, 0, c⟩ : HashMap κ ν) := by
  refine ⟨by simp [mkBuckets], hpow, ?_, ?_, ?_⟩
  · simp [mkBuckets, List.map_replicate]
  · intro i e he
    rw [bucketAt_mkBuckets] at he
    cases he
  · rw [entries_mkTable]
    exact List.nodup_nil

theorem WF_defaultTable (hash : κ → Nat) : WF hash (defaultTable : HashMap κ ν) :=
  WF_mkTable hash ⟨4, rfl⟩

/-! ## The `insert`/`resize` recursion -/

theorem insertF_zero (hash : κ → Nat) (t : HashMap κ ν) (k : κ) (v : ν) :
    insertF hash 0 t k v = none := rfl

theorem insertF_succ (hash : κ → Nat) (fuel : Nat) (t : HashMap κ ν) (k : κ) (v : ν) :
    insertF hash (fuel + 1) t k v =
      if containsKey hash t k then some (t, false)
      else
        if highCheck (pushEntry hash t k v) then
          (resizeWith (fun a b c => insertF hash fuel a b c) 1
            (pushEntry hash t k v)).map (fun t2 => (t2, true))
        else some (pushEntry hash t k v, true) := rfl

theorem resizeWith_eq (ins : HashMap κ ν → κ → ν → Option (HashMap κ ν × Bool))
    (way : Nat) (t : HashMap κ ν) :
    resizeWith ins way t =
      (entries t).foldlM (fun acc e => (ins acc e.1 e.2).map Prod.fst)
        (⟨mkBuckets (if way = 1 then t.capacity * 2 else t.capacity / 2), 0,
          if way = 1 then t.capacity * 2 else t.capacity / 2⟩ : HashMap κ ν) := rfl

/-- Re-inserting a key-disjoint, duplicate-free entry list through the
normal `insert` path never runs out of fuel or triggers a further resize,
provided the final load factor stays at or below 3/4. -/
theorem reinsert_fold (hash : κ → Nat) {fuel : Nat} (hfuel : 0 < fuel) :
    ∀ (L : List (κ × ν)) (t0 : HashMap κ ν),
      WF hash t0 →
      (keysOf L).Nodup →
      (∀ p ∈ L, p.1 ∉ keysOf (entries t0)) →
      4 * (t0.size + L.length) ≤ 3 * t0.capacity →
      ∃ t', L.foldlM (fun acc e => (insertF hash fuel acc e.1 e.2).map Prod.fst) t0
          = some t' ∧
        WF hash t' ∧ t'.capacity = t0.capacity ∧ t'.size = t0.size + L.length ∧
        (∀ k, k ∈ keysOf L → atKey? hash t' k = alookup L k) ∧
        (∀ k, k ∉ keysOf L → atKey? hash t' k = atKey? hash t0 k) := by
  obtain ⟨fuel, rfl⟩ : ∃ f, fuel = f + 1 := ⟨fuel - 1, by omega⟩
  intro L
  induction L with
  | nil =>
    intro t0 hwf _ _ _
    exact ⟨t0, rfl, hwf, rfl, by simp, by simp [keysOf], fun k _ => rfl⟩
  | cons p rest ih =>
    intro t0 hwf hnd hdisj hbound
    obtain ⟨k, v⟩ := p
    have hk0 : k ∉ keysOf (entries t0) := hdisj (k, v) (List.mem_cons_self _ _)
    have hcont : containsKey hash t0 k = false := hwf.containsKey_eq_false_iff.mpr hk0
    have hlen : (rest : List (κ × ν)).length + 1 = ((k, v) :: rest).length := rfl
    have hhigh : highCheck (pushEntry hash t0 k v) = false := by
      simp only [highCheck, pushEntry_size, pushEntry_capacity, decide_eq_false_iff_not,
        not_lt]
      have : ((k, v) :: rest).length = rest.length + 1 := rfl
      rw [this] at hbound
      omega
    have hstep : insertF hash (fuel + 1) t0 k v = some (pushEntry hash t0 k v, true) := by
      rw [insertF_succ, hcont, hhigh]
      simp
    have hwf1 : WF hash (pushEntry hash t0 k v) := WF_pushEntry hwf v hk0
    have hmemkeys : ∀ q ∈ rest, (q : κ × ν).1 ∈ keysOf rest :=
      fun q hq => List.mem_map.mpr ⟨q, hq, rfl⟩
    have hknotrest : k ∉ keysOf rest := by
      have := hnd
      rw [show keysOf ((k, v) :: rest) = k :: keysOf rest from rfl, List.nodup_cons] at this
      exact this.1
    have hdisj1 : ∀ q ∈ rest, (q : κ × ν).1 ∉ keysOf (entries (pushEntry hash t0 k v)) := by
      intro q hq hmem
      have hlt : hashy hash t0 k < t0.buckets.length := by
        rw [hwf.len]; exact hwf.hashy_lt' k
      have hperm := (entries_pushEntry_perm hash t0 k v hlt).map Prod.fst
      rcases List.mem_cons.mp (hperm.mem_iff.mp hmem) with hqk | hqt
      · have : q.1 = k := hqk
        exact hknotrest (this ▸ hmemkeys q hq)
      · exact hdisj q (List.mem_cons_of_mem _ hq) hqt
    have hbound1 : 4 * ((pushEntry hash t0 k v).size + rest.length) ≤
        3 * (pushEntry hash t0 k v).capacity := by
      simp only [pushEntry_size, pushEntry_capacity]
      have : ((k, v) :: rest).length = rest.length + 1 := rfl
      rw [this] at hbound
      omega
    obtain ⟨t', hrun, hwf', hcap', hsize', hin', hout'⟩ :=
      ih (pushEntry hash t0 k v) hwf1
        (by rw [show keysOf ((k, v) :: rest) = k :: keysOf rest from rfl,
              List.nodup_cons] at hnd; exact hnd.2)
        hdisj1 hbound1
    refine ⟨t', ?_, hwf', by simpa using hcap', ?_, ?_, ?_⟩
    · rw [List.foldlM_cons]
      simp only [hstep, Option.map_some', Option.bind_eq_bind, Option.some_bind]
      exact hrun
    · rw [hsize', pushEntry_size]
      simp
      omega
    · intro k0 hk0mem
      rcases List.mem_cons.mp hk0mem with rfl | hk0rest
      · rw [hout' k0 hknotrest, atKey?_pushEntry hwf v hk0 k0, if_pos rfl,
          alookup_cons, if_pos rfl]
      · have hk0ne : k0 ≠ k := fun hEq => hknotrest (hEq ▸ hk0rest)
        rw [hin' k0 hk0rest, alookup_cons, if_neg (fun hEq => hk0ne hEq.symm)]
    · intro k0 hk0out
      have hk0rest : k0 ∉ keysOf rest :=
        fun hmem => hk0out (List.mem_cons_of_mem _ hmem)
      have hk0ne : k ≠ k0 := by
        rintro rfl
        exact hk0out (List.mem_cons_self _ _)
      rw [hout' k0 hk0rest, atKey?_pushEntry hwf v hk0 k0, if_neg hk0ne]

/-- `resize` (with a unit of fuel left for the re-inserts) succeeds,
preserves the stored map and the size, and installs the new capacity. -/
theorem resizeWith_spec {hash : κ → Nat} (fuel : Nat) (hfuel : 0 < fuel) (way : Nat)
    {t : HashMap κ ν} (h : WF hash t) (newCap : Nat)
    (hnc : newCap = if way = 1 then t.capacity * 2 else t.capacity / 2)
    (hpow : ∃ m, newCap = 2 ^ m)
    (hbound : 4 * t.size ≤ 3 * newCap) :
    ∃ t', resizeWith (fun a b c => insertF hash fuel a b c) way t = some t' ∧
      WF hash t' ∧ t'.capacity = newCap ∧ t'.size = t.size ∧
      ∀ k, atKey? hash t' k = atKey? hash t k := by
  have hfold := reinsert_fold hash hfuel (entries t)
    (⟨mkBuckets newCap, 0, newCap⟩ : HashMap κ ν)
    (WF_mkTable hash hpow) h.nodupKeys
    (by rw [entries_mkTable]; intro p _ hmem; simp [keysOf] at hmem)
    (by rw [h.length_entries]; simpa using hbound)
  obtain ⟨t', hrun, hwf', hcap', hsize', hin', hout'⟩ := hfold
  refine ⟨t', ?_, hwf', hcap', by simpa [h.length_entries] using hsize', ?_⟩
  · rw [resizeWith_eq, ← hnc]
    exact hrun
  · intro k
    by_cases hk : k ∈ keysOf (entries t)
    · rw [hin' k hk, h.atKey?_eq_alookup]
    · rw [hout' k hk, atKey?_mkTable, h.atKey?_eq_alookup, alookup_eq_none.mpr hk]

/-! ## The inductive invariant and the operation specifications -/

/-- The invariant every table reachable from the default constructor
satisfies: well-formed, with load factor at most 3/4. -/
def Invariant (hash : κ → Nat) (t : HashMap κ ν) : Prop :=
  WF hash t ∧ 4 * t.size ≤ 3 * t.capacity

theorem Invariant_defaultTable (hash : κ → Nat) :
    Invariant hash (defaultTable : HashMap κ ν) :=
  ⟨WF_defaultTable hash, by norm_num [defaultTable]⟩

theorem insert_unfold (hash : κ → Nat) (t : HashMap κ ν) (k : κ) (v : ν) :
    insert hash t k v =
      if containsKey hash t k then some (t, false)
      else
        if highCheck (pushEntry hash t k v) then
          (resizeWith (fun a b c => insertF hash 2 a b c) 1
            (pushEntry hash t k v)).map (fun t2 => (t2, true))
        else some (pushEntry hash t k v, true) := rfl

/-- Full specification of one `insert` call on an invariant-satisfying
table: a present key leaves the table untouched and reports `false`; an
absent key is stored (growing the table when required), every other
binding is preserved, and the invariant is maintained. -/
theorem insert_total {hash : κ → Nat} {t : HashMap κ ν} (h : Invariant hash t)
    (k : κ) (v : ν) :
    (containsKey hash t k = true → insert hash t k v = some (t, false)) ∧
    (containsKey hash t k = false →
      ∃ t', insert hash t k v = some (t', true) ∧ Invariant hash t' ∧
        t'.size = t.size + 1 ∧
        (t'.capacity = t.capacity ∨ t'.capacity = t.capacity * 2) ∧
        atKey? hash t' k = some v ∧
        ∀ k', k' ≠ k → atKey? hash t' k' = atKey? hash t k') := by
  obtain ⟨hwf, hlf⟩ := h
  constructor
  · intro hc
    rw [insert_unfold, if_pos hc]
  · intro hc
    have hk : k ∉ keysOf (entries t) := hwf.containsKey_eq_false_iff.mp hc
    have hwf1 := WF_pushEntry hwf v hk
    have hat1 := atKey?_pushEntry hwf v hk
    have hcpos := hwf.capacity_pos
    by_cases hh : highCheck (pushEntry hash t k v) = true
    · obtain ⟨m, hm⟩ := hwf.pow
      have hbound : 4 * (pushEntry hash t k v).size ≤
          3 * (t.capacity * 2) := by
        simp only [pushEntry_size]
        omega
      obtain ⟨t2, hrs, hwf2, hcap2, hsize2, hlook2⟩ :=
        resizeWith_spec 2 (by norm_num) 1 hwf1 (t.capacity * 2)
          (by simp) ⟨m + 1, by rw [hm, Nat.pow_succ]⟩ hbound
      refine ⟨t2, ?_, ⟨hwf2, ?_⟩, ?_, Or.inr hcap2, ?_, ?_⟩
      · rw [insert_unfold, if_neg (by simp [hc]), if_pos hh, hrs, Option.map_some']
      · rw [hsize2, hcap2, pushEntry_size]
        omega
      · rw [hsize2, pushEntry_size]
      · rw [hlook2, hat1, if_pos rfl]
      · intro k' hk'
        rw [hlook2, hat1, if_neg (fun hEq => hk' hEq.symm)]
    · have hh' : highCheck (pushEntry hash t k v) = false := by
        cases hhc : highCheck (pushEntry hash t k v)
        · rfl
        · exact absurd hhc hh
      have hle : 4 * (t.size + 1) ≤ 3 * t.capacity := by
        have := hh'
        simp only [highCheck, pushEntry_size, pushEntry_capacity,
          decide_eq_false_iff_not, not_lt] at this
        omega
      refine ⟨pushEntry hash t k v, ?_, ⟨hwf1, ?_⟩, rfl, Or.inl rfl, ?_, ?_⟩
      · rw [insert_unfold, if_neg (by simp [hc]), hh']
        simp
      · simpa using hle
      · rw [hat1, if_pos rfl]
      · intro k' hk'
        rw [hat1, if_neg (fun hEq => hk' hEq.symm)]

theorem containsKey_eq_any (hash : κ → Nat) (t : HashMap κ ν) (k : κ) :
    containsKey hash t k =
      (t.bucketAt (hashy hash t k)).any (fun e => decide (e.1 = k)) := by
  rw [containsKey, bucketIndex?_eq]
  by_cases h : ((t.bucketAt (hashy hash t k)).any fun e => decide (e.1 = k)) = true
  · rw [if_pos h, h]
    rfl
  · have h' : ((t.bucketAt (hashy hash t k)).any fun e => decide (e.1 = k)) = false := by
      cases hx : (t.bucketAt (hashy hash t k)).any fun e => decide (e.1 = k)
      · rfl
      · exact absurd hx h
    rw [if_neg h, h']
    rfl

theorem erase_absent {hash : κ → Nat} {t : HashMap κ ν} {k : κ}
    (hc : containsKey hash t k = false) : erase hash t k = some (t, false) := by
  have hnone : bucketIndex? hash t k = none := by
    rw [containsKey] at hc
    exact Option.not_isSome_iff_eq_none.mp (by simp [hc])
  unfold erase
  rw [hnone]

/-- The state of the table immediately after `erase` removes the matching
entry and decrements `_size`, before any shrink is considered. -/
def eraseStep (hash : κ → Nat) (t : HashMap κ ν) (k : κ) : HashMap κ ν :=
  { t with
    buckets := t.buckets.set (hashy hash t k)
      ((t.bucketAt (hashy hash t k)).eraseP (fun e => decide (e.1 = k))),
    size := t.size - 1 }

theorem erase_unfold_found {hash : κ → Nat} {t : HashMap κ ν} {k : κ}
    (hany : ((t.bucketAt (hashy hash t k)).any fun e => decide (e.1 = k)) = true) :
    erase hash t k =
      if lowCheck (eraseStep hash t k) then
        (resizeWith (fun a b c => insertF hash 2 a b c) 0
          (eraseStep hash t k)).map (fun t2 => (t2, true))
      else some (eraseStep hash t k, true) := by
  unfold erase
  rw [bucketIndex?_eq, if_pos hany]
  show (if ((t.bucketAt (hashy hash t k)).any fun e => decide (e.1 = k)) = true
      then (if lowCheck (eraseStep hash t k) = true then
          (resizeWith (fun a b c => insertF hash 2 a b c) 0
            (eraseStep hash t k)).map (fun t2 => (t2, true))
        else some (eraseStep hash t k, true))
      else some (t, false)) = _
  rw [if_pos hany]

/-- The removal step is exact: the erased table is well-formed, holds every
binding except `k`, and has one entry fewer. -/
theorem eraseStep_spec {hash : κ → Nat} {t : HashMap κ ν} (hwf : WF hash t) {k : κ}
    (hc : containsKey hash t k = true) :
    WF hash (eraseStep hash t k) ∧
      (eraseStep hash t k).size + 1 = t.size ∧
      (eraseStep hash t k).capacity = t.capacity ∧
      atKey? hash (eraseStep hash t k) k = none ∧
      ∀ k', k' ≠ k → atKey? hash (eraseStep hash t k) k' = atKey? hash t k' := by
  have hany : ((t.bucketAt (hashy hash t k)).any fun e => decide (e.1 = k)) = true := by
    rw [← containsKey_eq_any]
    exact hc
  obtain ⟨e, he, hpe⟩ := List.any_eq_true.mp hany
  obtain ⟨a, l1, l2, hl1, hpa, hbeq, herase⟩ :=
    @List.exists_of_eraseP _ (fun e => decide (e.1 = k)) _ _ he hpe
  have ha1 : a.1 = k := by simpa using hpa
  have hlt : hashy hash t k < t.buckets.length := by
    rw [hwf.len]
    exact hwf.hashy_lt' k
  have hbuckets1 : (eraseStep hash t k).buckets =
      t.buckets.take (hashy hash t k) ++ (l1 ++ l2) :: t.buckets.drop (hashy hash t k + 1) := by
    show t.buckets.set (hashy hash t k) _ = _
    rw [herase, set_decomp t _ hlt]
  have hentriesT : entries t =
      (t.buckets.take (hashy hash t k)).flatten ++
        ((l1 ++ a :: l2) ++ (t.buckets.drop (hashy hash t k + 1)).flatten) := by
    conv_lhs => rw [entries, buckets_decomp t hlt]
    rw [List.flatten_append, List.flatten_cons, hbeq]
  have hentriesT1 : entries (eraseStep hash t k) =
      (t.buckets.take (hashy hash t k)).flatten ++
        ((l1 ++ l2) ++ (t.buckets.drop (hashy hash t k + 1)).flatten) := by
    rw [entries, hbuckets1, List.flatten_append, List.flatten_cons]
  have hperm : (entries t).Perm (a :: entries (eraseStep hash t k)) := by
    rw [hentriesT, hentriesT1]
    have hmid := @List.perm_middle _ a
      ((t.buckets.take (hashy hash t k)).flatten ++ l1)
      (l2 ++ (t.buckets.drop (hashy hash t k + 1)).flatten)
    simpa [List.append_assoc] using hmid
  have hkeysperm : (keysOf (entries t)).Perm (k :: keysOf (entries (eraseStep hash t k))) := by
    have := hperm.map Prod.fst
    rwa [List.map_cons, ha1] at this
  have hnodup1 : (k :: keysOf (entries (eraseStep hash t k))).Nodup :=
    hkeysperm.nodup_iff.mp hwf.nodupKeys
  have hsize_pos : 1 ≤ t.size := by
    have hlen := hwf.length_entries
    have : a ∈ entries t := hperm.mem_iff.mpr (List.mem_cons_self _ _)
    have := List.length_pos.mpr (List.ne_nil_of_mem this)
    omega
  have hwf1 : WF hash (eraseStep hash t k) := by
    refine ⟨?_, hwf.pow, ?_, ?_, ?_⟩
    · show (t.buckets.set _ _).length = t.capacity
      rw [List.length_set, hwf.len]
    · have hlenT := hperm.length_eq
      rw [List.length_cons] at hlenT
      have h1 := hwf.length_entries
      have h2 : (eraseStep hash t k).size = t.size - 1 := rfl
      -- size of erased table equals its entry count
      have h3 : (eraseStep hash t k).size = (entries (eraseStep hash t k)).length := by omega
      rw [h3, entries, List.length_flatten]
    · intro j q hq
      have hq' : q ∈ ((eraseStep hash t k).buckets).getD j [] := hq
      have hbeq' : (eraseStep hash t k).buckets =
          t.buckets.set (hashy hash t k)
            ((t.bucketAt (hashy hash t k)).eraseP (fun e => decide (e.1 = k))) := rfl
      rw [hbeq', getD_set_nil] at hq'
      split at hq'
      · next hcond =>
        have hsub : q ∈ t.bucketAt (hashy hash t k) :=
          (List.eraseP_sublist _).mem hq'
        have := hwf.placed (hashy hash t k) q hsub
        rw [show hashy hash (eraseStep hash t k) q.1 = hashy hash t q.1 from rfl, this]
        exact hcond.1.symm
      · exact hwf.placed j q hq'
    · exact (List.nodup_cons.mp hnodup1).2
  have hat1 : atKey? hash (eraseStep hash t k) k = none :=
    hwf1.atKey?_eq_none_iff.mpr (List.nodup_cons.mp hnodup1).1
  refine ⟨hwf1, by show t.size - 1 + 1 = t.size; omega, rfl, hat1, ?_⟩
  intro k' hk'
  rw [hwf.atKey?_eq_alookup, alookup_congr_perm hperm hwf.nodupKeys,
    alookup_cons, ha1, if_neg (fun hEq => hk' hEq.symm), hwf1.atKey?_eq_alookup]

/-- Full specification of one `erase` call on an invariant-satisfying
table: an absent key leaves the table untouched and reports `false`; a
present key is removed (shrinking the table when the load factor drops
below 1/4), every other binding is preserved, and the invariant is
maintained. -/
theorem erase_total {hash : κ → Nat} {t : HashMap κ ν} (h : Invariant hash t) (k : κ) :
    (containsKey hash t k = false → erase hash t k = some (t, false)) ∧
    (containsKey hash t k = true →
      ∃ t', erase hash t k = some (t', true) ∧ Invariant hash t' ∧
        t'.size + 1 = t.size ∧
        atKey? hash t' k = none ∧
        ∀ k', k' ≠ k → atKey? hash t' k' = atKey? hash t k') := by
  obtain ⟨hwf, hlf⟩ := h
  refine ⟨erase_absent, ?_⟩
  intro hc
  have hany : ((t.bucketAt (hashy hash t k)).any fun e => decide (e.1 = k)) = true := by
    rw [← containsKey_eq_any]
    exact hc
  obtain ⟨hwf1, hsize1, hcap1, hat1, hat1'⟩ := eraseStep_spec hwf hc
  have hsize_pos : 1 ≤ t.size := by omega
  have hcap2 : 2 ≤ t.capacity := by
    obtain ⟨m, hm⟩ := hwf.pow
    -- a nonempty invariant table cannot have capacity 1
    rcases Nat.lt_or_ge t.capacity 2 with hlt | hge
    · interval_cases hcap : t.capacity <;> omega
    · exact hge
  by_cases hlow : lowCheck (eraseStep hash t k) = true
  · -- shrink
    obtain ⟨m, hm⟩ := hwf.pow
    have hm1 : 1 ≤ m := by
      rcases Nat.eq_zero_or_pos m with rfl | h1
      · rw [hm] at hcap2; norm_num at hcap2
      · exact h1
    obtain ⟨m', rfl⟩ : ∃ m', m = m' + 1 := ⟨m - 1, by omega⟩
    have hhalf : t.capacity / 2 = 2 ^ m' := by
      rw [hm, Nat.pow_succ]
      omega
    have hlow' : 4 * (eraseStep hash t k).size < (eraseStep hash t k).capacity := by
      simpa [lowCheck] using hlow
    have hbound : 4 * (eraseStep hash t k).size ≤ 3 * (t.capacity / 2) := by
      rw [hcap1] at hlow'
      have : t.capacity = 2 * (t.capacity / 2) := by
        rw [hhalf, hm, Nat.pow_succ]
        ring
      omega
    obtain ⟨t2, hrs, hwf2, hcap2', hsize2, hlook2⟩ :=
      resizeWith_spec 2 (by norm_num) 0 hwf1 (t.capacity / 2)
        (by simp [hcap1]) ⟨m', hhalf⟩ hbound
    refine ⟨t2, ?_, ⟨hwf2, ?_⟩, ?_, ?_, ?_⟩
    · rw [erase_unfold_found hany, if_pos hlow, hrs, Option.map_some']
    · rw [hcap2', hsize2]
      omega
    · omega
    · rw [hlook2]
      exact hat1
    · intro k' hk'
      rw [hlook2]
      exact hat1' k' hk'
  · have hlow' : lowCheck (eraseStep hash t k) = false := by
      cases hx : lowCheck (eraseStep hash t k)
      · rfl
      · exact absurd hx hlow
    refine ⟨eraseStep hash t k, ?_, ⟨hwf1, ?_⟩, hsize1, hat1, hat1'⟩
    · rw [erase_unfold_found hany, hlow']
      simp
    · rw [hcap1]
      omega

/-! ## Refinement of operation sequences to the abstract map -/

theorem applyOp_spec {hash : κ → Nat} {t : HashMap κ ν} (h : Invariant hash t)
    (op : Op κ ν) :
    ∃ t', applyOp hash t op = some t' ∧ Invariant hash t' ∧
      ∀ k, atKey? hash t' k = specApply (atKey? hash t) op k := by
  cases op with
  | ins k v =>
    by_cases hc : containsKey hash t k = true
    · refine ⟨t, ?_, h, ?_⟩
      · rw [applyOp, (insert_total h k v).1 hc, Option.map_some']
      · intro k'
        rw [containsKey_eq_isSome_atKey?] at hc
        simp [specApply, hc]
    · have hc' : containsKey hash t k = false := by
        cases hx : containsKey hash t k
        · rfl
        · exact absurd hx hc
      obtain ⟨t', hins, hinv', _, _, hat, hat'⟩ := (insert_total h k v).2 hc'
      refine ⟨t', ?_, hinv', ?_⟩
      · rw [applyOp, hins, Option.map_some']
      · intro k'
        have hnone : (atKey? hash t k).isSome = false := by
          rw [← containsKey_eq_isSome_atKey?]
          exact hc'
        rw [specApply, hnone]
        simp only [Bool.false_eq_true, if_false]
        by_cases hk' : k' = k
        · subst hk'
          rw [hat, if_pos rfl]
        · rw [hat' k' hk', if_neg hk']
  | del k =>
    by_cases hc : containsKey hash t k = true
    · obtain ⟨t', hdel, hinv', _, hat, hat'⟩ := (erase_total h k).2 hc
      refine ⟨t', ?_, hinv', ?_⟩
      · rw [applyOp, hdel, Option.map_some']
      · intro k'
        simp only [specApply]
        by_cases hk' : k' = k
        · subst hk'
          rw [hat, if_pos rfl]
        · rw [hat' k' hk', if_neg hk']
    · have hc' : containsKey hash t k = false := by
        cases hx : containsKey hash t k
        · rfl
        · exact absurd hx hc
      refine ⟨t, ?_, h, ?_⟩
      · rw [applyOp, (erase_total h k).1 hc', Option.map_some']
      · intro k'
        simp only [specApply]
        by_cases hk' : k' = k
        · subst hk'
          have : atKey? hash t k' = none := by
            have := containsKey_eq_isSome_atKey? hash t k'
            rw [hc'] at this
            exact Option.not_isSome_iff_eq_none.mp (by simp [← this])
          rw [this, if_pos rfl]
        · rw [if_neg hk']

theorem runOps_refines {hash : κ → Nat} :
    ∀ (ops : List (Op κ ν)) (t0 : HashMap κ ν), Invariant hash t0 →
      ∃ t, ops.foldlM (applyOp hash) t0 = some t ∧ Invariant hash t ∧
        ∀ k, atKey? hash t k = ops.foldl specApply (atKey? hash t0) k := by
  intro ops
  induction ops with
  | nil => exact fun t0 h0 => ⟨t0, rfl, h0, fun k => rfl⟩
  | cons op rest ih =>
    intro t0 h0
    obtain ⟨t1, hstep, h1, hat1⟩ := applyOp_spec h0 op
    obtain ⟨t, hrun, hinv, hat⟩ := ih t1 h1
    refine ⟨t, ?_, hinv, ?_⟩
    · rw [List.foldlM_cons]
      simp only [hstep, Option.bind_eq_bind, Option.some_bind]
      exact hrun
    · intro k
      rw [hat k, List.foldl_cons, funext hat1]

theorem atKey?_defaultTable (hash : κ → Nat) (k : κ) :
    atKey? hash (defaultTable : HashMap κ ν) k = none :=
  atKey?_mkTable hash 16 0 16 k

/-- Master refinement: any operation sequence from the default constructor
succeeds, the result satisfies the invariant, and its observable map is
exactly the abstract one. -/
theorem runOps_spec (hash : κ → Nat) (ops : List (Op κ ν)) :
    ∃ t, runOps hash ops = some t ∧ Invariant hash t ∧
      ∀ k, atKey? hash t k = specRun ops k := by
  obtain ⟨t, hrun, hinv, hat⟩ :=
    runOps_refines ops defaultTable (Invariant_defaultTable hash)
  refine ⟨t, hrun, hinv, ?_⟩
  intro k
  rw [hat k, specRun, funext (atKey?_defaultTable (ν := ν) hash)]

/-! ## Iterator correctness -/

/-- The entries a cursor still has to visit: the rest of its bucket, then
all later buckets. -/
def restEntries (t : HashMap κ ν) (it : Iter) : List (κ × ν) :=
  (t.bucketAt it.idx).drop it.off ++ (t.buckets.drop (it.idx + 1)).flatten

/-- A cursor position reachable by the iterator protocol: terminal, or
pointing at a real entry. -/
def GoodIter (t : HashMap κ ν) (it : Iter) : Prop :=
  it = endIter t ∨ (it.idx < t.capacity ∧ it.off < (t.bucketAt it.idx).length)

theorem restEntries_endIter {hash : κ → Nat} {t : HashMap κ ν} (hwf : WF hash t) :
    restEntries t (endIter t) = [] := by
  have hcap := hwf.capacity_pos
  rw [restEntries, endIter]
  simp only
  rw [List.drop_length]
  have hlen : t.capacity - 1 + 1 = t.buckets.length := by rw [hwf.len]; omega
  rw [hlen, List.drop_length]
  rfl

theorem advance_spec {hash : κ → Nat} {t : HashMap κ ν} (hwf : WF hash t) :
    ∀ (n idx off : Nat), t.capacity - 1 - idx = n → idx < t.capacity →
      off ≤ (t.bucketAt idx).length →
      GoodIter t (advance t idx off) ∧
        restEntries t (advance t idx off) = restEntries t ⟨idx, off⟩ := by
  intro n
  induction n using Nat.strong_induction_on with
  | _ n ih =>
    intro idx off hn hidx hoff
    by_cases hcond : off = (t.bucketAt idx).length ∧ idx < t.capacity - 1
    · rw [advance, dif_pos hcond]
      have hlt1 : idx + 1 < t.capacity := by omega
      have hstep := ih (t.capacity - 1 - (idx + 1)) (by omega) (idx + 1) 0 rfl hlt1
        (Nat.zero_le _)
      refine ⟨hstep.1, ?_⟩
      rw [hstep.2]
      rw [restEntries, restEntries]
      simp only
      rw [hcond.1, List.drop_length, List.nil_append, List.drop_zero]
      have hlt1' : idx + 1 < t.buckets.length := by rw [hwf.len]; exact hlt1
      rw [List.drop_eq_getElem_cons hlt1', List.flatten_cons, bucketAt_lt hlt1']
    · rw [advance, dif_neg hcond]
      refine ⟨?_, rfl⟩
      rcases Nat.lt_or_ge off (t.bucketAt idx).length with hlt | hge
      · exact Or.inr ⟨hidx, hlt⟩
      · have hoff' : off = (t.bucketAt idx).length := by omega
        have hidx' : idx = t.capacity - 1 := by
          rcases Nat.lt_or_ge idx (t.capacity - 1) with h | h
          · exact absurd ⟨hoff', h⟩ hcond
          · omega
        left
        subst hidx'
        rw [endIter, hoff']

theorem beginIter_spec {hash : κ → Nat} {t : HashMap κ ν} (hwf : WF hash t) :
    GoodIter t (beginIter t) ∧ restEntries t (beginIter t) = entries t := by
  rw [beginIter]
  by_cases hfe : firstNonempty t = t.capacity
  · rw [if_pos hfe]
    have hall : ∀ b ∈ t.buckets, b = [] := by
      intro b hb
      have hlen : t.buckets.length ≤ firstNonempty t := by rw [hwf.len, hfe]
      have := List.findIdx_eq_length.mp (le_antisymm (List.findIdx_le_length _) hlen)
      have hb' := this b hb
      simpa [List.isEmpty_iff] using hb'
    have hentries : entries t = [] := List.flatten_eq_nil_iff.mpr hall
    refine ⟨Or.inl rfl, ?_⟩
    rw [restEntries_endIter hwf, hentries]
  · rw [if_neg hfe]
    have hfl : firstNonempty t < t.capacity := by
      have hle := @List.findIdx_le_length _ (fun b => !b.isEmpty) t.buckets
      rw [hwf.len] at hle
      rw [firstNonempty] at hfe ⊢
      omega
    have hfl' : firstNonempty t < t.buckets.length := by rw [hwf.len]; exact hfl
    have hfl'' : List.findIdx (fun b => !b.isEmpty) t.buckets < t.buckets.length := hfl'
    have hne : t.bucketAt (firstNonempty t) ≠ [] := by
      have hfi := @List.findIdx_getElem _ (fun b => !b.isEmpty) t.buckets hfl''
      have hfi' : (!(t.bucketAt (firstNonempty t)).isEmpty) = true := by
        rw [bucketAt_lt hfl']
        exact hfi
      intro hnil
      rw [hnil] at hfi'
      simp at hfi'
    have hpos : 0 < (t.bucketAt (firstNonempty t)).length := List.length_pos.mpr hne
    refine ⟨Or.inr ⟨hfl, hpos⟩, ?_⟩
    rw [restEntries]
    simp only
    rw [List.drop_zero]
    have htake : ∀ b ∈ t.buckets.take (firstNonempty t), b = [] := by
      intro b hb
      obtain ⟨j, hj, rfl⟩ := List.mem_iff_getElem.mp hb
      have hjlt : j < firstNonempty t := by
        have := List.length_take_le (firstNonempty t) t.buckets
        have h2 := hj
        rw [List.length_take] at h2
        omega
      have hjlen : j < t.buckets.length := by omega
      have hnf := @List.not_of_lt_findIdx _ (fun b => !b.isEmpty) t.buckets j
        (by rw [firstNonempty] at hjlt; exact hjlt)
      rw [List.getElem_take]
      simpa [List.isEmpty_iff] using hnf
    have hflat : entries t = (t.buckets.drop (firstNonempty t)).flatten := by
      conv_lhs => rw [entries, ← List.take_append_drop (firstNonempty t) t.buckets]
      rw [List.flatten_append, List.flatten_eq_nil_iff.mpr htake, List.nil_append]
    rw [hflat, List.drop_eq_getElem_cons hfl', List.flatten_cons, bucketAt_lt hfl']

theorem travF_spec {hash : κ → Nat} {t : HashMap κ ν} (hwf : WF hash t) :
    ∀ (n : Nat) (it : Iter), GoodIter t it → (restEntries t it).length = n →
      travF t (n + 1) it = some (restEntries t it) := by
  intro n
  induction n with
  | zero =>
    intro it hgood hlen
    have hnil : restEntries t it = [] := List.length_eq_zero.mp hlen
    have hend : it = endIter t := by
      rcases hgood with h | ⟨hidx, hoff⟩
      · exact h
      · exfalso
        rw [restEntries, List.length_append, List.length_drop] at hlen
        omega
    rw [travF, if_pos hend, hnil]
  | succ n ih =>
    intro it hgood hlen
    have hne : it ≠ endIter t := by
      intro hEq
      rw [hEq, restEntries_endIter hwf] at hlen
      simp at hlen
    rcases hgood with h | ⟨hidx, hoff⟩
    · exact absurd h hne
    have hidx' : it.idx < t.buckets.length := by rw [hwf.len]; exact hidx
    have hderef : deref? t it = some (t.bucketAt it.idx)[it.off] := by
      rw [deref?, List.getElem?_eq_getElem hoff]
    have hrest_cons : restEntries t it =
        (t.bucketAt it.idx)[it.off] :: restEntries t ⟨it.idx, it.off + 1⟩ := by
      rw [restEntries, restEntries, List.drop_eq_getElem_cons hoff]
      rfl
    have hadv := advance_spec hwf (t.capacity - 1 - it.idx) it.idx (it.off + 1) rfl hidx
      (by omega)
    have hlen' : (restEntries t ⟨it.idx, it.off + 1⟩).length = n := by
      rw [hrest_cons, List.length_cons] at hlen
      omega
    have hstep : iterStep t it = advance t it.idx (it.off + 1) := rfl
    rw [travF, if_neg hne, hderef, hstep,
      ih (advance t it.idx (it.off + 1)) hadv.1 (by rw [hadv.2]; exact hlen'), hadv.2]
    show some ((t.bucketAt it.idx)[it.off] :: restEntries t ⟨it.idx, it.off + 1⟩)
      = some (restEntries t it)
    rw [← hrest_cons]

/-! ## The equality operator -/

theorem beqTable_eq_true_iff {hash : κ → Nat} {a b : HashMap κ ν} (hb : WF hash b) :
    beqTable hash a b = true ↔
      a.size = b.size ∧ ∀ k v, atKey? hash b k = some v → atKey? hash a k = some v := by
  rw [beqTable]
  by_cases hs : a.size = b.size
  · rw [if_neg (by simpa using hs), List.all_eq_true]
    constructor
    · intro hall
      refine ⟨hs, ?_⟩
      intro k v hbv
      have hmem : (k, v) ∈ entries b := hb.atKey?_eq_some_iff.mp hbv
      have hone := hall (k, v) hmem
      cases hx : atKey? hash a k with
      | none => rw [hx] at hone; cases hone
      | some w =>
        rw [hx] at hone
        have hwv : w = v := by simpa using hone
        rw [hwv]
    · rintro ⟨_, himp⟩ e he
      obtain ⟨k, v⟩ := e
      have hbv : atKey? hash b k = some v := hb.atKey?_eq_some_iff.mpr he
      rw [himp k v hbv]
      simp
  · rw [if_pos (by simpa using hs)]
    exact ⟨fun h => absurd h (by simp), fun hcon => absurd hcon.1 hs⟩

/-- Two well-formed tables of equal size with one graph contained in the
other hold exactly the same bindings. -/
theorem atKey?_ext_of_subset {hash : κ → Nat} {a b : HashMap κ ν}
    (ha : WF hash a) (hb : WF hash b) (hs : a.size = b.size)
    (himp : ∀ k v, atKey? hash b k = some v → atKey? hash a k = some v) :
    ∀ k, atKey? hash a k = atKey? hash b k := by
  have hsub : entries b ⊆ entries a := by
    intro e he
    obtain ⟨k, v⟩ := e
    exact ha.atKey?_eq_some_iff.mp (himp k v (hb.atKey?_eq_some_iff.mpr he))
  have hndb : (entries b).Nodup := hb.nodupKeys.of_map
  have hlen : (entries a).length ≤ (entries b).length := by
    rw [ha.length_entries, hb.length_entries, hs]
  have hperm : (entries b).Perm (entries a) :=
    (List.subperm_of_subset hndb hsub).perm_of_length_le hlen
  intro k
  rw [ha.atKey?_eq_alookup, hb.atKey?_eq_alookup,
    alookup_congr_perm hperm hb.nodupKeys]

/-! ## The index operator and the `(keys, values)` constructor -/

theorem setFirst_map_fst (b : List (κ × ν)) (k : κ) (v : ν) :
    (setFirst b k v).map Prod.fst = b.map Prod.fst := by
  induction b with
  | nil => rfl
  | cons e rest ih =>
    rw [setFirst]
    split
    · simp
    · simpa using ih

theorem setFirst_length (b : List (κ × ν)) (k : κ) (v : ν) :
    (setFirst b k v).length = b.length := by
  have h1 := congrArg List.length (setFirst_map_fst b k v)
  simpa using h1

theorem find?_setFirst_self (b : List (κ × ν)) (k : κ) (v : ν) (h : k ∈ keysOf b) :
    (setFirst b k v).find? (fun e => decide (e.1 = k)) = some (k, v) := by
  induction b with
  | nil => cases h
  | cons e rest ih =>
    rw [setFirst]
    split
    · next hek =>
      rw [List.find?_cons]
      simp [hek]
    · next hek =>
      have hk : k ∈ keysOf rest := by
        rcases List.mem_cons.mp h with hke | hk
        · exact absurd hke.symm hek
        · exact hk
      rw [List.find?_cons]
      simp only [hek, decide_eq_true_eq]
      rw [ih hk]
      split
      · next hcontra => exact absurd hcontra (by simp [hek])
      · rfl

theorem find?_setFirst_ne (b : List (κ × ν)) (k : κ) (v : ν) (k' : κ) (h : k' ≠ k) :
    (setFirst b k v).find? (fun e => decide (e.1 = k')) =
      b.find? (fun e => decide (e.1 = k')) := by
  induction b with
  | nil => rfl
  | cons e rest ih =>
    rw [setFirst]
    split
    · next hek =>
      have hne : e.1 ≠ k' := fun hEq => h ((hEq ▸ hek : (k' : κ) = k))
      rw [List.find?_cons, List.find?_cons]
      simp [hne]
    · next hek =>
      rw [List.find?_cons, List.find?_cons]
      cases hx : decide (e.1 = k')
      · simpa [hx] using ih
      · rfl

theorem mem_setFirst_keys (b : List (κ × ν)) (k : κ) (v : ν) :
    ∀ e ∈ setFirst b k v, e.1 ∈ keysOf b := by
  intro e he
  have h1 : e.1 ∈ (setFirst b k v).map Prod.fst := List.mem_map.mpr ⟨e, he, rfl⟩
  rw [setFirst_map_fst] at h1
  exact h1

/-- The second stage of `operator[]` assignment: overwriting the value of
a present key in place. -/
theorem overwrite_spec {hash : κ → Nat} {t1 : HashMap κ ν} (hwf : WF hash t1) {k : κ}
    (hc : containsKey hash t1 k = true) (v : ν) :
    WF hash (overwriteAt hash t1 k v) ∧
      atKey? hash (overwriteAt hash t1 k v) k = some v ∧
      ∀ k', k' ≠ k → atKey? hash (overwriteAt hash t1 k v) k' = atKey? hash t1 k' := by
  have hlt : hashy hash t1 k < t1.buckets.length := by
    rw [hwf.len]
    exact hwf.hashy_lt' k
  have hkb : k ∈ keysOf (t1.bucketAt (hashy hash t1 k)) := by
    rw [containsKey_eq_any] at hc
    obtain ⟨e, he, hpe⟩ := List.any_eq_true.mp hc
    exact List.mem_map.mpr ⟨e, he, by simpa using hpe⟩
  set b := t1.bucketAt (hashy hash t1 k) with hb
  set t' : HashMap κ ν := overwriteAt hash t1 k v with ht'
  have hhashy : ∀ k0, hashy hash t' k0 = hashy hash t1 k0 := fun _ => rfl
  have hbucket' : ∀ j, t'.bucketAt j =
      if j = hashy hash t1 k ∧ hashy hash t1 k < t1.buckets.length
      then setFirst b k v else t1.bucketAt j := by
    intro j
    rw [show t'.bucketAt j =
      (t1.buckets.set (hashy hash t1 k) (setFirst b k v)).getD j [] from rfl, getD_set_nil]
    rfl
  have hwf' : WF hash t' := by
    refine ⟨?_, hwf.pow, ?_, ?_, ?_⟩
    · show (t1.buckets.set _ _).length = t1.capacity
      rw [List.length_set, hwf.len]
    · show t1.size = _
      rw [show t'.buckets = t1.buckets.set (hashy hash t1 k) (setFirst b k v) from rfl,
        set_decomp t1 _ hlt, List.map_append, List.sum_append, List.map_cons,
        List.sum_cons, setFirst_length]
      have hsz := hwf.sizeEq
      conv_lhs => rw [hsz, buckets_decomp t1 hlt]
      rw [List.map_append, List.sum_append, List.map_cons, List.sum_cons]
    · intro j e he
      rw [hbucket'] at he
      rw [hhashy]
      split at he
      · next hcond =>
        obtain ⟨e0, he0, hkey⟩ := List.mem_map.mp (mem_setFirst_keys b k v e he)
        rw [← hkey, hwf.placed (hashy hash t1 k) e0 he0]
        exact hcond.1.symm
      · exact hwf.placed j e he
    · have hkeys : keysOf (entries t') = keysOf (entries t1) := by
        rw [entries, show t'.buckets = t1.buckets.set (hashy hash t1 k) (setFirst b k v)
          from rfl, set_decomp t1 _ hlt, List.flatten_append, List.flatten_cons]
        conv_rhs => rw [entries, buckets_decomp t1 hlt, List.flatten_append,
          List.flatten_cons]
        simp only [keysOf, List.map_append, setFirst_map_fst]
      rw [hkeys]
      exact hwf.nodupKeys
  refine ⟨hwf', ?_, ?_⟩
  · rw [atKey?_eq_alookup_bucket, hhashy, hbucket', if_pos ⟨rfl, hlt⟩, alookup,
      find?_setFirst_self b k v hkb, Option.map_some']
  · intro k' hk'
    rw [atKey?_eq_alookup_bucket, atKey?_eq_alookup_bucket, hhashy, hbucket']
    split
    · next hcond =>
      rw [hcond.1, ← hb, alookup, alookup, find?_setFirst_ne b k v k' hk']
    · rfl

/-- Full specification of one `hm[k] = v` assignment. -/
theorem bracketAssign_spec {hash : κ → Nat} [Inhabited ν] {t : HashMap κ ν}
    (h : Invariant hash t) (k : κ) (v : ν) :
    ∃ t', bracketAssign hash t k v = some t' ∧ Invariant hash t' ∧
      t'.size = (if containsKey hash t k = true then t.size else t.size + 1) ∧
      atKey? hash t' k = some v ∧
      ∀ k', k' ≠ k → atKey? hash t' k' = atKey? hash t k' := by
  by_cases hc : containsKey hash t k = true
  · obtain ⟨hwf', hat', hat''⟩ := overwrite_spec h.1 hc v
    refine ⟨_, ?_, ⟨hwf', ?_⟩, ?_, hat', hat''⟩
    · rw [bracketAssign, if_pos hc, Option.map_some']
    · exact h.2
    · rw [if_pos hc]
      rfl
  · have hc' : containsKey hash t k = false := by
      cases hx : containsKey hash t k
      · rfl
      · exact absurd hx hc
    obtain ⟨t1, hins, hinv1, hsize1, _, hat1, hat1'⟩ := (insert_total h k default).2 hc'
    have hc1 : containsKey hash t1 k = true := by
      rw [containsKey_eq_isSome_atKey?, hat1]
      rfl
    obtain ⟨hwf', hat', hat''⟩ := overwrite_spec hinv1.1 hc1 v
    refine ⟨_, ?_, ⟨hwf', ?_⟩, ?_, hat', ?_⟩
    · rw [bracketAssign, if_neg (by simp [hc']), hins, Option.map_some', Option.map_some']
    · exact hinv1.2
    · rw [if_neg (by simp [hc'])]
      exact hsize1
    · intro k' hk'
      rw [hat'' k' hk', hat1' k' hk']

/-- `operator=` — in contrast to the copy constructor — resets `_size` to
0 before re-inserting, and is a correct deep copy: the assigned table has
the source's size and capacity and exactly its bindings. -/
theorem assign_spec {hash : κ → Nat} {src : HashMap κ ν} (h : Invariant hash src) :
    ∃ t', assign hash src = some t' ∧ WF hash t' ∧ t'.capacity = src.capacity ∧
      t'.size = src.size ∧ ∀ k, atKey? hash t' k = atKey? hash src k := by
  obtain ⟨hwf, hlf⟩ := h
  have hfold := reinsert_fold hash (by norm_num : (0 : Nat) < 3) (entries src)
    (⟨mkBuckets src.capacity, 0, src.capacity⟩ : HashMap κ ν)
    (WF_mkTable hash hwf.pow) hwf.nodupKeys
    (by rw [entries_mkTable]; intro p _ hmem; simp [keysOf] at hmem)
    (by rw [hwf.length_entries]; simpa using hlf)
  obtain ⟨t', hrun, hwf', hcap', hsize', hin', hout'⟩ := hfold
  refine ⟨t', hrun, hwf', hcap', by simpa [hwf.length_entries] using hsize', ?_⟩
  intro k
  by_cases hk : k ∈ keysOf (entries src)
  · rw [hin' k hk, hwf.atKey?_eq_alookup]
  · rw [hout' k hk, atKey?_mkTable, hwf.atKey?_eq_alookup, alookup_eq_none.mpr hk]

/-! ## Claim theorems -/

/-- C1: evidence against the claim. After `insert(0, 0)` on a default
table followed by `clear()`, every bucket is empty, the capacity is still
16 and `containsKey(0)` is false — but `size()` returns the stale value 1
rather than 0, because the body of `clear` only empties the buckets and
never resets `_size`. -/
theorem claimC1_clear_leaves_stale_size :
    (runOps (fun k => k) [Op.ins 0 (0 : Nat)]).map (fun t =>
        ((clear t).size, (clear t).capacity, (clear t).buckets.all List.isEmpty,
          containsKey (fun k => k) (clear t) 0))
      = some (1, 16, true, false) := by decide

/-- C2: evidence against the claim. Copy-constructing a one-entry table
(obtained by `insert(0, 0)` on a default table) yields a copy whose
`size()` is 2, not 1: the copy constructor initialises `_size` to
`other._size` and then re-inserts every entry through `insert`, which
increments `_size` again.  Consequently `operator==` reports the copy and
the original as different in both directions.  (`operator=`, which resets
`_size` to 0 first, does not have this fault.) -/
theorem claimC2_copy_ctor_size_doubled :
    ((runOps (fun k => k) [Op.ins 0 (0 : Nat)]).bind (fun t =>
        (copyCtor (fun k => k) t).map (fun c =>
          (t.size, c.size, beqTable (fun k => k) c t, beqTable (fun k => k) t c))))
      = some (1, 2, false, false) := by decide

/-- C3: evidence against the claim. `insert(0, 0); erase(0)` on a default
table drops the load factor to 0, and the shrink path — which has no floor
guard — halves the capacity to 8, below the claimed minimum of 16.  In the
spec's own example scenario (insert 13 distinct keys, then erase 11 of
them) the capacity ends at 8 as well, not at the claimed 16; the two
remaining keys are still retrievable and the erased ones report absent. -/
theorem claimC3_capacity_shrinks_below_floor :
    runOps (fun k => k) [Op.ins 0 (0 : Nat), Op.del 0]
        = some (⟨mkBuckets 8, 0, 8⟩ : HashMap Nat Nat) ∧
      (runOps (fun k => k)
          (((List.range 13).map (fun i => Op.ins i (0 : Nat))) ++
            ((List.range 11).map Op.del))).map
          (fun t => (t.capacity, t.size, containsKey (fun k => k) t 11,
            containsKey (fun k => k) t 12, containsKey (fun k => k) t 0))
        = some (8, 2, true, true, false) := by
  constructor
  · decide
  · decide

/-- C4: evidence against the claim. After the erase in
`insert(0, 0); erase(0)` on a default table completes (including its
triggered shrink), the table has capacity 8 — which is not the minimum
floor capacity 16, so the claim's exception does not apply — yet its load
factor is 0, violating the claimed lower bound of 0.25. -/
theorem claimC4_load_factor_bound_violated :
    runOps (fun k => k) [Op.ins 0 (0 : Nat), Op.del 0]
        = some (⟨mkBuckets 8, 0, 8⟩ : HashMap Nat Nat) ∧
      getLoadFactor (⟨mkBuckets 8, 0, 8⟩ : HashMap Nat Nat) < 1 / 4 ∧
      (⟨mkBuckets 8, 0, 8⟩ : HashMap Nat Nat).capacity ≠ 16 := by
  refine ⟨by decide, ?_, by decide⟩
  norm_num [getLoadFactor]

/-- C5: on any table satisfying the data-model invariant, inserting an
already-present key returns false and leaves the table (size, capacity and
every binding) completely unchanged; in particular after
`insert(k, v1); insert(k, v2)` on a table not containing `k`, the second
insert fails and `at(k)` is still `v1`. -/
theorem claimC5_insert_no_overwrite {hash : κ → Nat} {t : HashMap κ ν}
    (h : Invariant hash t) (k : κ) (v1 v2 : ν) :
    (containsKey hash t k = true → insert hash t k v2 = some (t, false)) ∧
    (containsKey hash t k = false →
      ∃ t1, insert hash t k v1 = some (t1, true) ∧
        insert hash t1 k v2 = some (t1, false) ∧
        atKey? hash t1 k = some v1) := by
  refine ⟨(insert_total h k v2).1, ?_⟩
  intro hc
  obtain ⟨t1, hins, hinv1, _, _, hat, _⟩ := (insert_total h k v1).2 hc
  have hc1 : containsKey hash t1 k = true := by
    rw [containsKey_eq_isSome_atKey?, hat]
    rfl
  exact ⟨t1, hins, (insert_total hinv1 k v2).1 hc1, hat⟩

theorem claimC5_witness :
    ∃ t1, insert (fun k => k) (defaultTable : HashMap Nat Nat) 0 1 = some (t1, true) ∧
      insert (fun k => k) t1 0 2 = some (t1, false) ∧
      atKey? (fun k => k) t1 0 = some 1 :=
  (claimC5_insert_no_overwrite (Invariant_defaultTable (fun k => k)) 0 1 2).2 (by decide)

/-- C7: for every hash function and every sequence of `insert`/`erase`
operations starting from a default-constructed table, the run succeeds and
the resulting table binds exactly what the abstract no-overwrite map
prescribes: every successfully inserted and not subsequently erased key is
retrievable through `at` with the value it was inserted with, and
`containsKey` agrees — no matter how many grow or shrink rehashes
happened along the way. -/
theorem claimC7_keys_retrievable_after_ops (hash : κ → Nat) (ops : List (Op κ ν)) :
    ∃ t, runOps hash ops = some t ∧
      (∀ k, atKey? hash t k = specRun ops k) ∧
      (∀ k, containsKey hash t k = (specRun ops k).isSome) := by
  obtain ⟨t, hrun, _, hat⟩ := runOps_spec hash ops
  refine ⟨t, hrun, hat, ?_⟩
  intro k
  rw [containsKey_eq_isSome_atKey?, hat k]

/-- C8: on any well-formed table, the traversal from `begin()` until the
cursor equals `end()` yields exactly the stored entries in bucket-major,
insertion-minor order — `size()` many pairs, with pairwise distinct keys,
whose key set is exactly the set accepted by `containsKey` — and on an
empty table `begin()` equals `end()`. -/
theorem claimC8_iteration_complete {hash : κ → Nat} {t : HashMap κ ν} (hwf : WF hash t) :
    travF t (t.size + 1) (beginIter t) = some (entries t) ∧
    (entries t).length = t.size ∧
    (keysOf (entries t)).Nodup ∧
    (∀ k, k ∈ keysOf (entries t) ↔ containsKey hash t k = true) ∧
    (t.size = 0 → beginIter t = endIter t) := by
  obtain ⟨hgood, hrest⟩ := beginIter_spec hwf
  refine ⟨?_, hwf.length_entries, hwf.nodupKeys, ?_, ?_⟩
  · have htr := travF_spec hwf (entries t).length (beginIter t) hgood (by rw [hrest])
    rw [hrest, hwf.length_entries] at htr
    exact htr
  · exact fun k => (hwf.containsKey_iff).symm
  · intro hsz
    have hent : entries t = [] := by
      have hl := hwf.length_entries
      rw [hsz] at hl
      exact List.length_eq_zero.mp hl
    have hall : ∀ b ∈ t.buckets, (fun b => !List.isEmpty b) b = false := by
      intro b hb
      have hbnil : b = [] := List.flatten_eq_nil_iff.mp hent b hb
      simp [hbnil]
    have hfi : firstNonempty t = t.capacity := by
      rw [firstNonempty, List.findIdx_eq_length.mpr hall, hwf.len]
    rw [beginIter, if_pos hfi]

theorem claimC8_witness :
    travF (defaultTable : HashMap Nat Nat)
        ((defaultTable : HashMap Nat Nat).size + 1)
        (beginIter (defaultTable : HashMap Nat Nat))
        = some (entries (defaultTable : HashMap Nat Nat)) ∧
      (entries (defaultTable : HashMap Nat Nat)).length
        = (defaultTable : HashMap Nat Nat).size ∧
      (keysOf (entries (defaultTable : HashMap Nat Nat))).Nodup ∧
      (∀ k, k ∈ keysOf (entries (defaultTable : HashMap Nat Nat)) ↔
        containsKey (fun k => k) (defaultTable : HashMap Nat Nat) k = true) ∧
      ((defaultTable : HashMap Nat Nat).size = 0 →
        beginIter (defaultTable : HashMap Nat Nat)
          = endIter (defaultTable : HashMap Nat Nat)) :=
  claimC8_iteration_complete (WF_defaultTable (κ := Nat) (ν := Nat) (fun k => k))

/-- C9: on well-formed tables, `operator==` is symmetric and holds exactly
when the two tables have equal `size()` and every key bound in the first
is bound in the second to an equal value — independently of bucket
placement, capacity and iteration order, none of which appear in the
characterization. -/
theorem claimC9_beq_symmetric {hash : κ → Nat} {a b : HashMap κ ν}
    (ha : WF hash a) (hb : WF hash b) :
    beqTable hash a b = beqTable hash b a ∧
    (beqTable hash a b = true ↔
      a.size = b.size ∧ ∀ k v, atKey? hash a k = some v → atKey? hash b k = some v) := by
  have hiff : ∀ (x y : HashMap κ ν), WF hash x → WF hash y →
      (beqTable hash x y = true ↔
        x.size = y.size ∧ ∀ k, atKey? hash x k = atKey? hash y k) := by
    intro x y hx hy
    rw [beqTable_eq_true_iff hy]
    constructor
    · rintro ⟨hs, himp⟩
      exact ⟨hs, atKey?_ext_of_subset hx hy hs himp⟩
    · rintro ⟨hs, hext⟩
      exact ⟨hs, fun k v hv => by rw [hext k]; exact hv⟩
  constructor
  · have h1 := hiff a b ha hb
    have h2 := hiff b a hb ha
    have hsym : beqTable hash a b = true ↔ beqTable hash b a = true := by
      rw [h1, h2]
      constructor
      · rintro ⟨hs, hext⟩
        exact ⟨hs.symm, fun k => (hext k).symm⟩
      · rintro ⟨hs, hext⟩
        exact ⟨hs.symm, fun k => (hext k).symm⟩
    cases hx : beqTable hash a b <;> cases hy : beqTable hash b a <;> simp_all
  · rw [hiff a b ha hb]
    constructor
    · rintro ⟨hs, hext⟩
      exact ⟨hs, fun k v hv => by rw [← hext k]; exact hv⟩
    · rintro ⟨hs, himp⟩
      have hext := atKey?_ext_of_subset hb ha hs.symm himp
      exact ⟨hs, fun k => (hext k).symm⟩

theorem claimC9_witness :
    beqTable (fun k => k) (defaultTable : HashMap Nat Nat) defaultTable
        = beqTable (fun k => k) (defaultTable : HashMap Nat Nat) defaultTable ∧
      (beqTable (fun k => k) (defaultTable : HashMap Nat Nat) defaultTable = true ↔
        (defaultTable : HashMap Nat Nat).size = (defaultTable : HashMap Nat Nat).size ∧
        ∀ k v, atKey? (fun k => k) (defaultTable : HashMap Nat Nat) k = some v →
          atKey? (fun k => k) (defaultTable : HashMap Nat Nat) k = some v) :=
  claimC9_beq_symmetric (WF_defaultTable (κ := Nat) (ν := Nat) (fun k => k))
    (WF_defaultTable (κ := Nat) (ν := Nat) (fun k => k))

/-- C6: the `(keys, values)` constructor fails with the invalid-argument
exception (and produces no table) when the two sequences have different
lengths; otherwise it assigns pairwise through `operator[]`, so a later
duplicate key overwrites the earlier value: from `keys = [a, b, a]` and
`values = [1, 2, 3]` (with `a ≠ b`) it builds a table with `size() = 2`,
`at(a) = 3` and `at(b) = 2`, for every hash function. -/
theorem claimC6_ctor_length_check_and_overwrite {hash : κ → Nat} [Inhabited ν] :
    (∀ (keys : List κ) (values : List ν), keys.length ≠ values.length →
      ofLists hash keys values = Except.error ()) ∧
    (∀ a b : κ, a ≠ b →
      ∃ t, ofLists hash [a, b, a] ([1, 2, 3] : List ℕ) = Except.ok (some t) ∧
        t.size = 2 ∧ atKey? hash t a = some 3 ∧ atKey? hash t b = some 2) := by
  constructor
  · intro keys values hlen
    rw [ofLists, if_pos hlen]
  · intro a b hab
    have h0 : Invariant hash (defaultTable : HashMap κ ℕ) := Invariant_defaultTable hash
    have hca : containsKey hash (defaultTable : HashMap κ ℕ) a = false := by
      rw [containsKey_eq_isSome_atKey?, atKey?_defaultTable]
      rfl
    obtain ⟨t1, hstep1, hinv1, hsize1, hat1a, hat1'⟩ := bracketAssign_spec h0 a 1
    have hsize1' : t1.size = 1 := by
      rw [hsize1, if_neg (by simp [hca])]
      rfl
    have hat1b : atKey? hash t1 b = none := by
      rw [hat1' b (fun hEq => hab hEq.symm), atKey?_defaultTable]
    have hcb : containsKey hash t1 b = false := by
      rw [containsKey_eq_isSome_atKey?, hat1b]
      rfl
    obtain ⟨t2, hstep2, hinv2, hsize2, hat2b, hat2'⟩ := bracketAssign_spec hinv1 b 2
    have hsize2' : t2.size = 2 := by
      rw [hsize2, if_neg (by simp [hcb]), hsize1']
    have hat2a : atKey? hash t2 a = some 1 := by
      rw [hat2' a hab, hat1a]
    have hca2 : containsKey hash t2 a = true := by
      rw [containsKey_eq_isSome_atKey?, hat2a]
      rfl
    obtain ⟨t3, hstep3, hinv3, hsize3, hat3a, hat3'⟩ := bracketAssign_spec hinv2 a 3
    have hsize3' : t3.size = 2 := by
      rw [hsize3, if_pos hca2, hsize2']
    have hat3b : atKey? hash t3 b = some 2 := by
      rw [hat3' b (fun hEq => hab hEq.symm), hat2b]
    refine ⟨t3, ?_, hsize3', hat3a, hat3b⟩
    rw [ofLists, if_neg (by simp)]
    have hzip : ([a, b, a].zip ([1, 2, 3] : List ℕ)) = [(a, 1), (b, 2), (a, 3)] := rfl
    rw [hzip]
    simp only [List.foldlM_cons, List.foldlM_nil, hstep1, hstep2, hstep3,
      Option.bind_eq_bind, Option.some_bind]
    rfl

theorem claimC6_witness :
    ofLists (fun k => k) [0] ([] : List Nat) = Except.error () ∧
    ∃ t, ofLists (fun k => k) [0, 1, 0] ([1, 2, 3] : List ℕ) = Except.ok (some t) ∧
      t.size = 2 ∧ atKey? (fun k => k) t 0 = some 3 ∧ atKey? (fun k => k) t 1 = some 2 :=
  ⟨(@claimC6_ctor_length_check_and_overwrite Nat Nat _ _ (fun k => k) _).1
      [0] [] (by decide),
    (@claimC6_ctor_length_check_and_overwrite Nat Nat _ _ (fun k => k) _).2
      0 1 (by decide)⟩

/-- C10: the public `empty()` returns `_size != 0`: it reports true
exactly when the table holds at least one entry and false on a table with
no entries — the inverse of what its name conventionally means. -/
theorem claimC10_empty_inverted {hash : κ → Nat} {t : HashMap κ ν} (hwf : WF hash t) :
    (emptyCheck t = true ↔ t.size ≠ 0) ∧
    (emptyCheck t = true ↔ entries t ≠ []) := by
  have h1 : emptyCheck t = true ↔ t.size ≠ 0 := by
    simp [emptyCheck]
  refine ⟨h1, ?_⟩
  rw [h1]
  constructor
  · intro hs hent
    refine hs ?_
    rw [← hwf.length_entries, hent]
    rfl
  · intro hent hs
    refine hent ?_
    have hl := hwf.length_entries
    rw [hs] at hl
    exact List.length_eq_zero.mp hl

theorem claimC10_witness :
    (emptyCheck (defaultTable : HashMap Nat Nat) = true ↔
      (defaultTable : HashMap Nat Nat).size ≠ 0) ∧
    (emptyCheck (defaultTable : HashMap Nat Nat) = true ↔
      entries (defaultTable : HashMap Nat Nat) ≠ []) :=
  claimC10_empty_inverted (WF_defaultTable (κ := Nat) (ν := Nat) (fun k => k))

end HashMap

end SpamDetector
